import Mathlib

/-!
# Verification of `qmps/represent.py` and `new_tdvp/LoschmidtEchos.py`

A shallow embedding of the quantum-matrix-product-states code.  Complex
amplitudes are modelled by Gaussian rationals (`Cx`): every IEEE float is a
rational number, so every concrete complex matrix the program manipulates is a
matrix over `Cx`.  Machine floating error is idealised away (exact arithmetic),
which is the reading the spec itself uses ("to floating tolerance").
-/

/-- Gaussian-rational complex number: exact model of the complex floating
values (`re + im·i`) the numpy code manipulates. -/
@[ext] structure Cx where
  re : ℚ
  im : ℚ
deriving DecidableEq

namespace Cx

instance : Zero Cx := ⟨⟨0, 0⟩⟩
instance : One Cx := ⟨⟨1, 0⟩⟩
instance : Add Cx := ⟨fun a b => ⟨a.re + b.re, a.im + b.im⟩⟩
instance : Neg Cx := ⟨fun a => ⟨-a.re, -a.im⟩⟩
instance : Mul Cx := ⟨fun a b => ⟨a.re * b.re - a.im * b.im, a.re * b.im + a.im * b.re⟩⟩

@[simp] theorem zero_re : (0 : Cx).re = 0 := rfl
@[simp] theorem zero_im : (0 : Cx).im = 0 := rfl
@[simp] theorem one_re : (1 : Cx).re = 1 := rfl
@[simp] theorem one_im : (1 : Cx).im = 0 := rfl
@[simp] theorem add_re (a b : Cx) : (a + b).re = a.re + b.re := rfl
@[simp] theorem add_im (a b : Cx) : (a + b).im = a.im + b.im := rfl
@[simp] theorem neg_re (a : Cx) : (-a).re = -a.re := rfl
@[simp] theorem neg_im (a : Cx) : (-a).im = -a.im := rfl
@[simp] theorem mul_re (a b : Cx) : (a * b).re = a.re * b.re - a.im * b.im := rfl
@[simp] theorem mul_im (a b : Cx) : (a * b).im = a.re * b.im + a.im * b.re := rfl

instance commRing : CommRing Cx where
  add_assoc a b c := by ext <;> simp <;> ring
  zero_add a := by ext <;> simp
  add_zero a := by ext <;> simp
  add_comm a b := by ext <;> simp <;> ring
  mul_assoc a b c := by ext <;> simp <;> ring
  one_mul a := by ext <;> simp
  mul_one a := by ext <;> simp
  left_distrib a b c := by ext <;> simp <;> ring
  right_distrib a b c := by ext <;> simp <;> ring
  mul_comm a b := by ext <;> simp <;> ring
  zero_mul a := by ext <;> simp
  mul_zero a := by ext <;> simp
  neg_add_cancel a := by ext <;> simp
  nsmul := nsmulRec
  zsmul := zsmulRec

/-- Complex conjugation. -/
instance : Star Cx := ⟨fun a => ⟨a.re, -a.im⟩⟩

@[simp] theorem star_re (a : Cx) : (star a).re = a.re := rfl
@[simp] theorem star_im (a : Cx) : (star a).im = -a.im := rfl

instance : StarRing Cx where
  star_involutive a := by ext <;> simp
  star_mul a b := by ext <;> simp <;> ring
  star_add a b := by ext <;> simp [add_comm]

/-- `|z|²`, the squared modulus (`np.absolute(z)**2`). -/
def normSq (a : Cx) : ℚ := a.re ^ 2 + a.im ^ 2

@[simp] theorem normSq_zero : normSq 0 = 0 := by simp [normSq]

@[simp] theorem normSq_one : normSq 1 = 1 := by simp [normSq]

theorem normSq_nonneg (a : Cx) : 0 ≤ normSq a := by
  have h1 := sq_nonneg a.re
  have h2 := sq_nonneg a.im
  simp only [normSq]; linarith

theorem normSq_eq_zero_iff (a : Cx) : normSq a = 0 ↔ a = 0 := by
  constructor
  · intro h
    have h1 := sq_nonneg a.re
    have h2 := sq_nonneg a.im
    have hre : a.re = 0 := by
      have : a.re ^ 2 = 0 := by simp only [normSq] at h; linarith
      exact pow_eq_zero_iff (by norm_num) |>.mp this
    have him : a.im = 0 := by
      have : a.im ^ 2 = 0 := by simp only [normSq] at h; linarith
      exact pow_eq_zero_iff (by norm_num) |>.mp this
    ext <;> simp [hre, him]
  · rintro rfl; simp

theorem mul_star_self (a : Cx) : a * star a = ⟨normSq a, 0⟩ := by
  ext <;> simp [normSq] <;> ring

end Cx

/-! ## `Tensor.__pow__`  (`src/qmps/represent.py`, lines 140-144)

```python
def __pow__(self, power, modulo=None):
    if power == -1:
        return self.__class__(self.U.conj().T, symbol=self.symbol + '†')
    else:
        return self.__class__(np.linalg.multi_dot([self.U] * power))
```

`np.linalg.multi_dot` raises `ValueError("Expecting at least two arrays.")`
whenever it is given fewer than two matrices; otherwise it returns the chain
matrix product (numpy only optimises the association order, which by
associativity does not change the value).  Python exceptions are modelled by
`Except.error`. -/

/-- numpy's `multi_dot`: chain matrix product, erroring on fewer than two
arrays exactly as `numpy.linalg.multi_dot` does. -/
def multi_dot {n : ℕ} (arrays : List (Matrix (Fin n) (Fin n) Cx)) :
    Except String (Matrix (Fin n) (Fin n) Cx) :=
  match arrays with
  | [] => .error "Expecting at least two arrays."
  | [_] => .error "Expecting at least two arrays."
  | A :: rest => .ok (rest.foldl (· * ·) A)

namespace Tensor

/-- `Tensor.__pow__`: conjugate transpose at power `-1`, otherwise
`multi_dot` of `power` copies of the matrix (`[self.U] * power` is the empty
list when `power ≤ 0`). -/
def pow {n : ℕ} (U : Matrix (Fin n) (Fin n) Cx) (power : ℤ) :
    Except String (Matrix (Fin n) (Fin n) Cx) :=
  if power = -1 then .ok U.conjTranspose
  else multi_dot (List.replicate power.toNat U)

end Tensor

/-! ## Shallow ansatz qubit counts  (`represent.py`, lines 88-94 and 108-114)

`int(log2(bond_dim))` truncates the base-2 logarithm towards zero; for a
positive integer bond dimension this is `Nat.log2`. -/

namespace ShallowStateTensor

/-- `ShallowStateTensor.n_qubits = int(log2(bond_dim)) + 1`. -/
def n_qubits (bond_dim : ℕ) : ℕ := Nat.log2 bond_dim + 1

end ShallowStateTensor

namespace ShallowEnvironment

/-- `ShallowEnvironment.n_qubits = 2 * int(log2(bond_dim))`. -/
def n_qubits (bond_dim : ℕ) : ℕ := 2 * Nat.log2 bond_dim

end ShallowEnvironment

/-! ## `State._decompose_`  (`represent.py`, lines 75-79)

```python
def _decompose_(self, qubits):
    v_qbs = self.v.num_qubits()
    u_qbs = self.u.num_qubits()
    n = self.n_phys_qubits
    return [self.v(*qubits[n:n+v_qbs])] + [self.u(*qubits[i:i+u_qbs]) for i in range(n)]
```

A gate placement is the gate's identity together with the qubits it acts on;
the decomposition is the ordered list of placements. -/

/-- Which of the two component gates a placement applies. -/
inductive GateTag
  | U
  | V
deriving DecidableEq, Repr

/-- One placed gate: its tag and the qubit list it acts on. -/
structure Placement where
  tag : GateTag
  qubits : List ℕ
deriving DecidableEq, Repr

namespace State

/-- `State._decompose_`, with `u_qbs = u.num_qubits()`, `v_qbs =
v.num_qubits()`, `n = n_phys_qubits`; `qubits[a:a+k]` is `take k (drop a)`. -/
def decompose (u_qbs v_qbs n : ℕ) (qubits : List ℕ) : List Placement :=
  [⟨GateTag.V, (qubits.drop n).take v_qbs⟩] ++
    (List.range n).map (fun i => ⟨GateTag.U, (qubits.drop i).take u_qbs⟩)

/-- The gate order claimed by the spec (§4.3): `n` copies of `u` first,
then one copy of `v` on the boundary qubits. -/
def decomposeSpecClaimed (u_qbs v_qbs n : ℕ) (qubits : List ℕ) : List Placement :=
  (List.range n).map (fun i => ⟨GateTag.U, (qubits.drop i).take u_qbs⟩) ++
    [⟨GateTag.V, (qubits.drop n).take v_qbs⟩]

/-- The amended order: one copy of `v` on the boundary qubits
`qubits[n:n+v_qbs]` first, followed by the `n` copies of `u`, the `i`-th
acting on `qubits[i:i+u_qbs]`. -/
def decomposeSpecAmended (u_qbs v_qbs n : ℕ) (qubits : List ℕ) : List Placement :=
  ⟨GateTag.V, (qubits.drop n).take v_qbs⟩ ::
    (List.range n).map (fun i => ⟨GateTag.U, (qubits.drop i).take u_qbs⟩)

end State

/-! ## `loschmidt_evolve`  (`src/new_tdvp/LoschmidtEchos.py`, lines 52-94)

The external collaborators (`Op.evolve.paramU`, `Op.evolve.exact_optimize`
from `ClassicalTDVPStripped`, the matrix exponential) enter as parameters:
the loop structure, the appending, and the warm starting are the code under
`src/`.  `res_e` objects carry the optimized parameter vector `x` and the
final cost `fun`. -/

/-- A `scipy`-style optimization result: optimized parameters and final
cost. -/
structure OptResult (P : Type) where
  x : P
  cost : ℚ
deriving DecidableEq, Repr

/-- Modelled from the spec: `Op.evolve.exact_optimize` lives in
`ClassicalTDVPStripped`, which is not under `src/`.  Per the spec (§4.6,
§4.7), the optimizer returns the optimized parameters and final cost as a
function of the fixed operands and the initial parameters, and the `record`
flag only retains the per-iteration convergence trace "diagnostic only — does
not change the optimized result".  `result` and `trace` are the two
collaborator functions; `run` is a call to `exact_optimize`, returning the
result object and the retained trace (`cf_convergence`), the latter kept only
when `record` is set. -/
structure ExactOptimizer (P M : Type) where
  result : M → M → M → P → OptResult P
  trace : M → M → M → P → List ℚ

namespace ExactOptimizer

/-- One call `exact_optimize(W, U1, U2, initial_params, record)`. -/
def run {P M : Type} (opt : ExactOptimizer P M) (W U1 U2 : M) (p : P)
    (record : Bool) : OptResult P × Option (List ℚ) :=
  (opt.result W U1 U2 p, if record then some (opt.trace W U1 U2 p) else none)

end ExactOptimizer

namespace LoschmidtEchos

/-- The body of one quench iteration `i`: decompose the current parameters
with `paramU`, draw `record_optimize = randoms i`, and run `exact_optimize`
with `record = True` when `record_optimize < 0.1`, else with
`record = False`; the value kept is `res_e`. -/
def quenchStep {P M : Type} (opt : ExactOptimizer P M) (W : M)
    (paramU : P → M × M) (randoms : ℕ → ℚ) (i : ℕ) (init_params : P) :
    OptResult P :=
  let U1 := (paramU init_params).1
  let U2 := (paramU init_params).2
  if randoms i < 1 / 10 then (opt.run W U1 U2 init_params true).1
  else (opt.run W U1 U2 init_params false).1

/-- The records appended by the `for i in tqdm(range(STEPS))` loop, starting
at iteration index `i` with `steps` iterations left and current
`init_params`; each iteration appends `res_e` and warm-starts the next from
`res_e.x`. -/
def quenchTrail {P M : Type} (opt : ExactOptimizer P M) (W : M)
    (paramU : P → M × M) (randoms : ℕ → ℚ) :
    ℕ → ℕ → P → List (OptResult P)
  | _, 0, _ => []
  | i, steps + 1, init_params =>
    let res_e := quenchStep opt W paramU randoms i init_params
    res_e :: quenchTrail opt W paramU randoms (i + 1) steps res_e.x

/-- `loschmidt_evolve`: `loschmidt_results` starts as `[ground_state]`, then
the quench loop appends one record per step, warm-started from
`ground_state.x`. -/
def loschmidt_evolve {P M : Type} (opt : ExactOptimizer P M) (W : M)
    (paramU : P → M × M) (randoms : ℕ → ℚ) (ground_state : OptResult P)
    (STEPS : ℕ) : List (OptResult P) :=
  ground_state :: quenchTrail opt W paramU randoms 0 STEPS ground_state.x

end LoschmidtEchos

/-! ## Trajectory persistence  (`LoschmidtEchos.py`, lines 91-92 and 97-101)

Modelled from the spec: the code serializes with `pickle.dump` and reads back
with `pickle.load`; `pickle` is outside the repository and the spec (§6)
fixes only the contract — "format is an opaque blob (language-native object
graph serialization) … an implementer may choose any serialization as long as
round-trip fidelity of the parameter vectors and costs is preserved".  The
blob is modelled as a token stream; parameter vectors are the rational
vectors `List ℚ`. -/

/-- One token of the serialized blob: a length marker or a number. -/
inductive Tok
  | len (n : ℕ)
  | num (q : ℚ)
deriving DecidableEq, Repr

namespace Pickle

/-- Serialize one record: its parameter-vector length, the parameters, then
the cost. -/
def dumpRecord (r : OptResult (List ℚ)) : List Tok :=
  Tok.len r.x.length :: r.x.map Tok.num ++ [Tok.num r.cost]

/-- `pickle.dump` of a trajectory: record count, then each record in
order. -/
def dump (traj : List (OptResult (List ℚ))) : List Tok :=
  Tok.len traj.length :: (traj.map dumpRecord).flatten

/-- Read `k` numbers off the stream. -/
def readNums : ℕ → List Tok → Option (List ℚ × List Tok)
  | 0, ts => some ([], ts)
  | k + 1, Tok.num q :: ts =>
    match readNums k ts with
    | some (qs, rest) => some (q :: qs, rest)
    | none => none
  | _ + 1, _ => none

/-- Read one record off the stream. -/
def readRecord : List Tok → Option (OptResult (List ℚ) × List Tok)
  | Tok.len k :: ts =>
    match readNums k ts with
    | some (xs, Tok.num c :: rest) => some (⟨xs, c⟩, rest)
    | _ => none
  | _ => none

/-- Read `k` records off the stream. -/
def readRecords : ℕ → List Tok → Option (List (OptResult (List ℚ)) × List Tok)
  | 0, ts => some ([], ts)
  | k + 1, ts =>
    match readRecord ts with
    | some (r, rest) =>
      match readRecords k rest with
      | some (rs, rest2) => some (r :: rs, rest2)
      | none => none
    | none => none

end Pickle

/-- `load_echos`: deserialize a whole trajectory from the blob, requiring the
stream to be consumed exactly. -/
def load_echos (ts : List Tok) : Option (List (OptResult (List ℚ))) :=
  match ts with
  | Tok.len k :: rest =>
    match Pickle.readRecords k rest with
    | some (rs, []) => some rs
    | _ => none
  | _ => none

/-! ## Swap-test objectives  (`represent.py`, lines 184-205, 217-234, 242-265)

The simulator is external; its output enters as data.  For the exact variant
that output is the final state vector on the `n` circuit qubits (cirq orders
basis states with `qubits[0]` as the most significant bit).  For the sampled
variants it is the list of measured bitstrings, one per repetition. -/

namespace VerticalSwapOptimizer

/-- `get_target_qubits(aux_qubits, num_qubits) = 2**(num_qubits -
aux_qubits) - 1`. -/
def get_target_qubits (aux_qubits num_qubits : ℕ) : ℕ :=
  2 ^ (num_qubits - aux_qubits) - 1

/-- `VerticalSwapOptimizer.objective_function` after simulation: `1 -
prob_zeros` with `prob_zeros = sum(np.absolute(state_vector[:target])**2)`
and `target = get_target_qubits(aux_qubits, num_qubits)`; `n` is the state
circuit's qubit count and `a` the auxiliary count. -/
def objective_function (n a : ℕ) (ψ : Fin (2 ^ n) → Cx) : ℚ :=
  1 - ∑ i ∈ Finset.univ.filter
        (fun i : Fin (2 ^ n) => (i : ℕ) < get_target_qubits a n),
      Cx.normSq (ψ i)

end VerticalSwapOptimizer

/-- Modelled from the spec: the probability of the all-zero outcome on the
`a` auxiliary qubits `qubits[:aux_qubits]` (§4.5 "1 − P(target outcome)").
Those are the most significant `a` bits of the basis-state index, so the
outcome is all-zero exactly on indices whose quotient by `2^(n-a)`
vanishes. -/
def auxAllZeroProb (n a : ℕ) (ψ : Fin (2 ^ n) → Cx) : ℚ :=
  ∑ i ∈ Finset.univ.filter
      (fun i : Fin (2 ^ n) => (i : ℕ) / 2 ^ (n - a) = 0),
    Cx.normSq (ψ i)

namespace VerticalSampleSwapOptimizer

/-- The histogram fold `lambda e: sum(e)`: the number of 1s in one measured
bitstring. -/
def countOnes (shot : List Bool) : ℕ := (shot.filter (fun b => b)).length

/-- `VerticalSampleSwapOptimizer.objective_function` after sampling:
`sum(counter.elements()) / reps`, the mean number of 1s measured on the
auxiliary qubits per repetition. -/
def objective_function (shots : List (List Bool)) : ℚ :=
  ((shots.map countOnes).sum : ℚ) / (shots.length : ℚ)

end VerticalSampleSwapOptimizer

namespace HorizontalSwapOptimizer

/-- cirq's histogram keys a measured bitstring by its big-endian integer
value. -/
def intOfBits (shot : List Bool) : ℕ :=
  shot.foldl (fun acc b => 2 * acc + cond b 1 0) 0

/-- `HorizontalSwapOptimizer.objective_function` after sampling:
`counter[all_ones] / reps` with `all_ones = 2**(2*aux_qubs) - 1`, the
empirical frequency of the key `2^(2a) - 1` among the measured
bitstrings. -/
def objective_function (aux_qubs : ℕ) (shots : List (List Bool)) : ℚ :=
  ((shots.filter
      (fun s => intOfBits s = 2 ^ (2 * aux_qubs) - 1)).length : ℚ) /
    (shots.length : ℚ)

end HorizontalSwapOptimizer

/-- Modelled from the spec: the empirical probability that a shot is the
all-zero bitstring. -/
def empiricalAllZeroFreq (shots : List (List Bool)) : ℚ :=
  ((shots.filter (fun s => s.all (fun b => !b))).length : ℚ) /
    (shots.length : ℚ)

/-- Modelled from the spec: the empirical probability that measured bit `j`
came out 1. -/
def empiricalOneFreq (j : ℕ) (shots : List (List Bool)) : ℚ :=
  ((shots.filter (fun s => s.getD j false)).length : ℚ) / (shots.length : ℚ)

/-- Modelled from the spec: the empirical probability of the all-ones
bitstring on `len` measured bits. -/
def empiricalAllOnesFreq (len : ℕ) (shots : List (List Bool)) : ℚ :=
  ((shots.filter (fun s => s = List.replicate len true)).length : ℚ) /
    (shots.length : ℚ)

/-! ## `full_tomography_env_objective_function`  (`represent.py`, lines 38-65)

The two composed circuits (`State2(U, V)` and `Environment2(V)`, from the
repository's `tools` module, which is not under `src/`) are run through the
exact simulator and compared through `bloch_vector_of(qbs[0])`.  Modelled
from the spec: the circuits' exact output states on the three line qubits
enter as normalized state vectors `ψL, ψR`; `bloch_vector_of` and the
reduced state of the probe qubit are reconstructed from them below. -/

/-- The 3-qubit basis index whose probe-qubit (most significant) bits are `i`
and whose remaining two qubits read `r`. -/
def probeIdx (i : Fin 2) (r : Fin 4) : Fin 8 :=
  ⟨4 * i.val + r.val, by have h1 := i.isLt; have h2 := r.isLt; omega⟩

/-- The equivalence between (probe value, rest value) pairs and 3-qubit
basis indices underlying `probeIdx`. -/
def probeEquiv : Fin 2 × Fin 4 ≃ Fin 8 where
  toFun p := probeIdx p.1 p.2
  invFun k := (⟨k.val / 4, by have := k.isLt; omega⟩, ⟨k.val % 4, by omega⟩)
  left_inv := by decide
  right_inv := by decide

/-- Modelled from the spec: the exact reduced density matrix of probe qubit
0 of a 3-qubit state vector (the partial trace over the other two
qubits). -/
def reducedDensity (ψ : Fin 8 → Cx) (i j : Fin 2) : Cx :=
  ∑ r : Fin 4, ψ (probeIdx i r) * star (ψ (probeIdx j r))

/-- Modelled from the spec: cirq's `bloch_vector_of(qbs[0])`, the Bloch
vector `(2·Re ρ₀₁, 2·Im ρ₁₀, ρ₀₀ − ρ₁₁)` of the probe qubit's reduced
density matrix. -/
def blochVector (ψ : Fin 8 → Cx) : ℚ × ℚ × ℚ :=
  (2 * (reducedDensity ψ 0 1).re, 2 * (reducedDensity ψ 1 0).im,
    (reducedDensity ψ 0 0).re - (reducedDensity ψ 1 1).re)

/-- `full_tomography_env_objective_function`: `norm(LHS - RHS)`, the
Euclidean norm of the difference of the two exact Bloch vectors of qubit
0. -/
noncomputable def full_tomography_env_objective_function
    (ψL ψR : Fin 8 → Cx) : ℝ :=
  Real.sqrt
    ((((blochVector ψL).1 - (blochVector ψR).1) ^ 2 +
        ((blochVector ψL).2.1 - (blochVector ψR).2.1) ^ 2 +
        ((blochVector ψL).2.2 - (blochVector ψR).2.2) ^ 2 : ℚ) : ℝ)

/-- Basis state fixture: amplitude 1 on index `k`, 0 elsewhere. -/
def basisState (k : Fin 8) : Fin 8 → Cx := fun i => if i = k then 1 else 0

/-- C1: `Tensor.__pow__` at power 1 hands `multi_dot` the singleton list
`[U]`, which raises `ValueError` instead of returning `U`; evaluated here at a
concrete 2×2 unitary (the identity matrix). -/
theorem tensor_pow_one_raises :
    Tensor.pow (1 : Matrix (Fin 2) (Fin 2) Cx) 1 =
      Except.error "Expecting at least two arrays." := rfl

/-- C2: for a unitary `U`, `Tensor.__pow__` at power `-1` returns the
conjugate transpose of `U`, and that matrix composed with `U` is the
identity. -/
theorem tensor_pow_neg_one_inverse {n : ℕ} (U : Matrix (Fin n) (Fin n) Cx)
    (hU : U ∈ Matrix.unitaryGroup (Fin n) Cx) :
    Tensor.pow U (-1) = Except.ok U.conjTranspose ∧ U.conjTranspose * U = 1 := by
  refine ⟨rfl, ?_⟩
  have h := hU.1
  rwa [Matrix.star_eq_conjTranspose] at h

/-- Witness for C2 at the concrete 2×2 identity unitary. -/
theorem tensor_pow_neg_one_inverse_witness :
    Tensor.pow (1 : Matrix (Fin 2) (Fin 2) Cx) (-1) =
        Except.ok (1 : Matrix (Fin 2) (Fin 2) Cx).conjTranspose ∧
      (1 : Matrix (Fin 2) (Fin 2) Cx).conjTranspose * 1 = 1 :=
  tensor_pow_neg_one_inverse 1 (one_mem _)

/-- C5: for a bond dimension that is a power of two, the state ansatz acts on
`log2(bond_dim) + 1` qubits and the environment ansatz on
`2·log2(bond_dim)` qubits. -/
theorem shallow_ansatz_qubit_counts (k : ℕ) :
    ShallowStateTensor.n_qubits (2 ^ k) = k + 1 ∧
      ShallowEnvironment.n_qubits (2 ^ k) = 2 * k := by
  constructor
  · simp [ShallowStateTensor.n_qubits, Nat.log2_two_pow]
  · simp [ShallowEnvironment.n_qubits, Nat.log2_two_pow]

/-- C6 counterexample: with 2-qubit `u`, 2-qubit `v`, one physical qubit and
qubits `[0,1,2]`, the code emits `v` first and then `u`, not the claimed
`u`-then-`v` order. -/
theorem state_decompose_order_counterexample :
    State.decompose 2 2 1 [0, 1, 2] ≠ State.decomposeSpecClaimed 2 2 1 [0, 1, 2] := by
  decide

/-- C6 (amended): `State._decompose_` lays out one copy of `v` on the
boundary qubits `qubits[n:n+v_qbs]` first, followed by `n` copies of `u`,
the `i`-th acting on `qubits[i:i+u_qbs]`. -/
theorem state_decompose_env_first (u_qbs v_qbs n : ℕ) (qubits : List ℕ) :
    State.decompose u_qbs v_qbs n qubits =
      State.decomposeSpecAmended u_qbs v_qbs n qubits := rfl

/-! ### Loschmidt trajectory lemmas -/

theorem quenchTrail_length {P M : Type} (opt : ExactOptimizer P M) (W : M)
    (paramU : P → M × M) (randoms : ℕ → ℚ) :
    ∀ (n i : ℕ) (p : P),
      (LoschmidtEchos.quenchTrail opt W paramU randoms i n p).length = n := by
  intro n
  induction n with
  | zero => intro i p; rfl
  | succ m ih =>
    intro i p
    simp [LoschmidtEchos.quenchTrail, ih]

theorem quenchTrail_getD_zero {P M : Type} (opt : ExactOptimizer P M) (W : M)
    (paramU : P → M × M) (randoms : ℕ → ℚ) (m i : ℕ) (p : P) (d : OptResult P) :
    (LoschmidtEchos.quenchTrail opt W paramU randoms i (m + 1) p).getD 0 d =
      LoschmidtEchos.quenchStep opt W paramU randoms i p := rfl

theorem quenchTrail_getD_succ {P M : Type} (opt : ExactOptimizer P M) (W : M)
    (paramU : P → M × M) (randoms : ℕ → ℚ) :
    ∀ (n i : ℕ) (p : P) (j : ℕ) (d : OptResult P), j + 1 < n →
      (LoschmidtEchos.quenchTrail opt W paramU randoms i n p).getD (j + 1) d =
        LoschmidtEchos.quenchStep opt W paramU randoms (i + j + 1)
          ((LoschmidtEchos.quenchTrail opt W paramU randoms i n p).getD j d).x := by
  intro n
  induction n with
  | zero => intro i p j d h; omega
  | succ m ih =>
    intro i p j d h
    match j with
    | 0 =>
      obtain ⟨m', rfl⟩ : ∃ m', m = m' + 1 := ⟨m - 1, by omega⟩
      simp [LoschmidtEchos.quenchTrail]
    | j' + 1 =>
      simp only [LoschmidtEchos.quenchTrail, List.getD_cons_succ]
      have := ih (i + 1) (LoschmidtEchos.quenchStep opt W paramU randoms i p).x j' d
        (by omega)
      rw [this]
      congr 1
      omega

/-- The record flag only selects whether the convergence trace is retained;
the `res_e` component of `exact_optimize` is the same either way, so a quench
step does not depend on the random draw. -/
theorem quenchStep_eq_result {P M : Type} (opt : ExactOptimizer P M) (W : M)
    (paramU : P → M × M) (randoms : ℕ → ℚ) (i : ℕ) (p : P) :
    LoschmidtEchos.quenchStep opt W paramU randoms i p =
      opt.result W (paramU p).1 (paramU p).2 p := by
  unfold LoschmidtEchos.quenchStep ExactOptimizer.run
  split <;> rfl

theorem quenchTrail_randoms_irrelevant {P M : Type} (opt : ExactOptimizer P M)
    (W : M) (paramU : P → M × M) (randoms randoms' : ℕ → ℚ) :
    ∀ (n i i' : ℕ) (p : P),
      LoschmidtEchos.quenchTrail opt W paramU randoms i n p =
        LoschmidtEchos.quenchTrail opt W paramU randoms' i' n p := by
  intro n
  induction n with
  | zero => intro i i' p; rfl
  | succ m ih =>
    intro i i' p
    simp only [LoschmidtEchos.quenchTrail]
    rw [quenchStep_eq_result, quenchStep_eq_result]
    exact congrArg _ (ih (i + 1) (i' + 1) _)

/-- C7: `loschmidt_evolve` returns `STEPS + 1` records; record 0 is the
pre-quench ground state; and record `i + 1` is the optimization of step `i`
warm-started from record `i`'s optimized parameter vector. -/
theorem loschmidt_evolve_trajectory {P M : Type} (opt : ExactOptimizer P M)
    (W : M) (paramU : P → M × M) (randoms : ℕ → ℚ) (gs : OptResult P)
    (STEPS : ℕ) (d : OptResult P) :
    (LoschmidtEchos.loschmidt_evolve opt W paramU randoms gs STEPS).length = STEPS + 1 ∧
      (LoschmidtEchos.loschmidt_evolve opt W paramU randoms gs STEPS).getD 0 d = gs ∧
      ∀ i, i < STEPS →
        (LoschmidtEchos.loschmidt_evolve opt W paramU randoms gs STEPS).getD (i + 1) d =
          LoschmidtEchos.quenchStep opt W paramU randoms i
            ((LoschmidtEchos.loschmidt_evolve opt W paramU randoms gs STEPS).getD i d).x := by
  refine ⟨?_, rfl, ?_⟩
  · simp [LoschmidtEchos.loschmidt_evolve, quenchTrail_length]
  · intro i hi
    match i with
    | 0 =>
      obtain ⟨m, rfl⟩ : ∃ m, STEPS = m + 1 := ⟨STEPS - 1, by omega⟩
      simp only [LoschmidtEchos.loschmidt_evolve, List.getD_cons_succ, List.getD_cons_zero]
      exact quenchTrail_getD_zero opt W paramU randoms m 0 gs.x d
    | i' + 1 =>
      simp only [LoschmidtEchos.loschmidt_evolve, List.getD_cons_succ]
      have := quenchTrail_getD_succ opt W paramU randoms STEPS 0 gs.x i' d (by omega)
      rw [this]
      congr 1
      omega

/-- Concrete fixture optimizer for witnesses: optimized parameters increment,
cost 0, trace `[1]`. -/
def sampleOptimizer : ExactOptimizer ℚ ℚ :=
  ⟨fun _ _ _ p => ⟨p + 1, 0⟩, fun _ _ _ _ => [1]⟩

/-- Concrete fixture decomposition for witnesses. -/
def samplePairing : ℚ → ℚ × ℚ := fun p => (p, p)

/-- Witness for C7: at the fixture optimizer, two quench steps, random stream
constantly 1. -/
theorem loschmidt_evolve_trajectory_witness :
    (LoschmidtEchos.loschmidt_evolve sampleOptimizer 0 samplePairing (fun _ => 1)
          ⟨0, 0⟩ 2).getD 2 ⟨0, 0⟩ =
      LoschmidtEchos.quenchStep sampleOptimizer 0 samplePairing (fun _ => 1) 1
        ((LoschmidtEchos.loschmidt_evolve sampleOptimizer 0 samplePairing (fun _ => 1)
            ⟨0, 0⟩ 2).getD 1 ⟨0, 0⟩).x :=
  (loschmidt_evolve_trajectory sampleOptimizer 0 samplePairing (fun _ => 1)
      ⟨0, 0⟩ 2 ⟨0, 0⟩).2.2 1 (by decide)

/-- C8: the two branches of the `record_optimize` test produce the same
`res_e` from the same arguments `W, U1, U2, initial_params` (the flag only
retains the diagnostic trace), so the trajectory does not depend on the
random stream at all. -/
theorem record_branch_irrelevant {P M : Type} :
    (∀ (opt : ExactOptimizer P M) (W U1 U2 : M) (p : P),
        (opt.run W U1 U2 p true).1 = (opt.run W U1 U2 p false).1) ∧
      ∀ (opt : ExactOptimizer P M) (W : M) (paramU : P → M × M)
        (randoms randoms' : ℕ → ℚ) (gs : OptResult P) (STEPS : ℕ),
        LoschmidtEchos.loschmidt_evolve opt W paramU randoms gs STEPS =
          LoschmidtEchos.loschmidt_evolve opt W paramU randoms' gs STEPS := by
  refine ⟨fun opt W U1 U2 p => rfl, ?_⟩
  intro opt W paramU randoms randoms' gs STEPS
  simp only [LoschmidtEchos.loschmidt_evolve]
  exact congrArg _ (quenchTrail_randoms_irrelevant opt W paramU randoms randoms' STEPS 0 0 gs.x)

/-! ### Serialization round trip -/

theorem readNums_roundtrip :
    ∀ (xs : List ℚ) (ts : List Tok),
      Pickle.readNums xs.length (xs.map Tok.num ++ ts) = some (xs, ts) := by
  intro xs
  induction xs with
  | nil => intro ts; rfl
  | cons q qs ih =>
    intro ts
    simp [Pickle.readNums, ih ts]

theorem readRecord_roundtrip (r : OptResult (List ℚ)) (ts : List Tok) :
    Pickle.readRecord (Pickle.dumpRecord r ++ ts) = some (r, ts) := by
  obtain ⟨xs, c⟩ := r
  simp only [Pickle.dumpRecord, Pickle.readRecord, List.cons_append, List.append_assoc,
    List.singleton_append, List.nil_append, readNums_roundtrip]

theorem readRecords_roundtrip :
    ∀ (l : List (OptResult (List ℚ))) (ts : List Tok),
      Pickle.readRecords l.length ((l.map Pickle.dumpRecord).flatten ++ ts) =
        some (l, ts) := by
  intro l
  induction l with
  | nil => intro ts; rfl
  | cons r rs ih =>
    intro ts
    simp only [List.map_cons, List.flatten_cons, List.length_cons, List.append_assoc,
      Pickle.readRecords, readRecord_roundtrip, ih]

/-- C9: serializing a trajectory and deserializing the blob with
`load_echos` reproduces the parameter vectors and costs exactly. -/
theorem pickle_roundtrip (traj : List (OptResult (List ℚ))) :
    load_echos (Pickle.dump traj) = some traj := by
  have h := readRecords_roundtrip traj []
  rw [List.append_nil] at h
  simp only [Pickle.dump, load_echos, h]

/-! ### Swap-objective lemmas -/

theorem sum_filter_lt_succ {N : ℕ} (f : Fin N → ℚ) (t : ℕ) (ht : t < N) :
    ∑ i ∈ Finset.univ.filter (fun i : Fin N => (i : ℕ) < t + 1), f i =
      (∑ i ∈ Finset.univ.filter (fun i : Fin N => (i : ℕ) < t), f i) + f ⟨t, ht⟩ := by
  have hset : Finset.univ.filter (fun i : Fin N => (i : ℕ) < t + 1) =
      insert (⟨t, ht⟩ : Fin N)
        (Finset.univ.filter (fun i : Fin N => (i : ℕ) < t)) := by
    ext i
    simp only [Finset.mem_filter, Finset.mem_insert, Finset.mem_univ, true_and,
      Fin.ext_iff]
    omega
  rw [hset, Finset.sum_insert (by simp)]
  exact add_comm _ _

theorem auxAllZeroProb_eq_sum_lt (n a : ℕ) (ψ : Fin (2 ^ n) → Cx) :
    auxAllZeroProb n a ψ =
      ∑ i ∈ Finset.univ.filter
          (fun i : Fin (2 ^ n) => (i : ℕ) < 2 ^ (n - a)),
        Cx.normSq (ψ i) := by
  unfold auxAllZeroProb
  congr 1
  ext i
  simp only [Finset.mem_filter, Finset.mem_univ, true_and]
  rw [Nat.div_eq_zero_iff (Nat.pow_pos (by norm_num))]

/-- C10: the exact vertical objective subtracts the all-zero probability
minus the squared amplitude of basis state `2^(n-a) - 1` — that index is
excluded — and for a concrete normalized state the subtracted quantity really
differs from the full all-zero probability. -/
theorem vertical_objective_excludes_top_index :
    (∀ (n a : ℕ) (ψ : Fin (2 ^ n) → Cx),
        VerticalSwapOptimizer.objective_function n a ψ =
          1 - (auxAllZeroProb n a ψ -
            Cx.normSq (ψ ⟨2 ^ (n - a) - 1, by
              have h1 := Nat.pow_le_pow_right (by norm_num : 0 < 2) (Nat.sub_le n a)
              have h2 : 0 < 2 ^ (n - a) := Nat.pow_pos (by norm_num)
              omega⟩))) ∧
      ∃ ψ : Fin (2 ^ 3) → Cx, (∑ k, Cx.normSq (ψ k)) = 1 ∧
        1 - VerticalSwapOptimizer.objective_function 3 1 ψ ≠ auxAllZeroProb 3 1 ψ := by
  constructor
  · intro n a ψ
    have ht : 2 ^ (n - a) - 1 < 2 ^ n := by
      have h1 := Nat.pow_le_pow_right (by norm_num : 0 < 2) (Nat.sub_le n a)
      have h2 : 0 < 2 ^ (n - a) := Nat.pow_pos (by norm_num)
      omega
    have hsplit := sum_filter_lt_succ (fun i => Cx.normSq (ψ i)) (2 ^ (n - a) - 1) ht
    have hpow : 2 ^ (n - a) - 1 + 1 = 2 ^ (n - a) :=
      Nat.succ_pred_eq_of_pos (Nat.pow_pos (by norm_num))
    rw [hpow] at hsplit
    rw [auxAllZeroProb_eq_sum_lt, hsplit]
    unfold VerticalSwapOptimizer.objective_function VerticalSwapOptimizer.get_target_qubits
    ring
  · refine ⟨basisState 3, ?_, ?_⟩
    · show ∑ k : Fin 8, Cx.normSq (basisState 3 k) = 1
      simp [basisState, Fin.sum_univ_eight]
    · show (1 : ℚ) -
          (1 - ∑ i ∈ Finset.univ.filter (fun i : Fin 8 => (i : ℕ) < 2 ^ (3 - 1) - 1),
            Cx.normSq (basisState 3 i)) ≠
          ∑ i ∈ Finset.univ.filter (fun i : Fin 8 => (i : ℕ) / 2 ^ (3 - 1) = 0),
            Cx.normSq (basisState 3 i)
      rw [Finset.sum_filter, Finset.sum_filter]
      simp [basisState, Fin.sum_univ_eight]
      norm_num [show ((3 : Fin 8) : ℕ) = 3 from rfl]

/-- C3 counterexample: with two auxiliary qubits and the single measured
bitstring `11`, the sampled vertical objective returns cost 2, while
`1 − P(all-zero target outcome)` is 1; a cost of 2 is `1 − P` for no
outcome probability at all. -/
theorem swap_cost_counterexample :
    VerticalSampleSwapOptimizer.objective_function [[true, true]] = 2 ∧
      1 - empiricalAllZeroFreq [[true, true]] = 1 ∧ (2 : ℚ) ≠ 1 := by
  refine ⟨?_, ?_, by norm_num⟩
  · simp [VerticalSampleSwapOptimizer.objective_function,
      VerticalSampleSwapOptimizer.countOnes]
  · simp [empiricalAllZeroFreq]

theorem countOnes_cons (b : Bool) (t : List Bool) :
    VerticalSampleSwapOptimizer.countOnes (b :: t) =
      (if b then 1 else 0) + VerticalSampleSwapOptimizer.countOnes t := by
  cases b <;> simp [VerticalSampleSwapOptimizer.countOnes, List.filter_cons, Nat.add_comm]

theorem countOnes_eq_sum (s : List Bool) :
    VerticalSampleSwapOptimizer.countOnes s =
      ∑ j ∈ Finset.range s.length, (if s.getD j false then 1 else 0) := by
  induction s with
  | nil => simp [VerticalSampleSwapOptimizer.countOnes]
  | cons b t ih =>
    rw [List.length_cons, Finset.sum_range_succ']
    simp only [List.getD_cons_succ, List.getD_cons_zero]
    rw [← ih, countOnes_cons]
    exact add_comm _ _

theorem sum_countOnes (a : ℕ) :
    ∀ shots : List (List Bool), (∀ s ∈ shots, s.length = a) →
      (shots.map VerticalSampleSwapOptimizer.countOnes).sum =
        ∑ j ∈ Finset.range a,
          (shots.filter (fun s => s.getD j false)).length := by
  intro shots
  induction shots with
  | nil => simp
  | cons s ss ih =>
    intro h
    have hs : s.length = a := h s (by simp)
    have hss : ∀ x ∈ ss, x.length = a := fun x hx => h x (by simp [hx])
    simp only [List.map_cons, List.sum_cons, List.filter_cons]
    rw [ih hss, countOnes_eq_sum s, hs, ← Finset.sum_add_distrib]
    refine Finset.sum_congr rfl fun j hj => ?_
    by_cases hb : s[j]?.getD false = true <;> simp [hb, Nat.add_comm]

theorem intOfBits_foldl (s : List Bool) :
    ∀ acc : ℕ, s.foldl (fun acc b => 2 * acc + cond b 1 0) acc =
      acc * 2 ^ s.length + HorizontalSwapOptimizer.intOfBits s := by
  induction s with
  | nil => intro acc; simp [HorizontalSwapOptimizer.intOfBits]
  | cons b t ih =>
    intro acc
    simp only [List.foldl_cons, List.length_cons, HorizontalSwapOptimizer.intOfBits]
    rw [ih (2 * acc + cond b 1 0), ih (2 * 0 + cond b 1 0)]
    ring

theorem intOfBits_cons (b : Bool) (t : List Bool) :
    HorizontalSwapOptimizer.intOfBits (b :: t) =
      cond b 1 0 * 2 ^ t.length + HorizontalSwapOptimizer.intOfBits t := by
  show t.foldl _ (2 * 0 + cond b 1 0) = _
  rw [intOfBits_foldl t (2 * 0 + cond b 1 0)]
  ring

theorem intOfBits_lt (s : List Bool) :
    HorizontalSwapOptimizer.intOfBits s < 2 ^ s.length := by
  induction s with
  | nil => simp [HorizontalSwapOptimizer.intOfBits]
  | cons b t ih =>
    rw [intOfBits_cons, List.length_cons, pow_succ]
    cases b <;> simp <;> omega

theorem intOfBits_max_iff (s : List Bool) :
    HorizontalSwapOptimizer.intOfBits s = 2 ^ s.length - 1 ↔
      s = List.replicate s.length true := by
  induction s with
  | nil => simp [HorizontalSwapOptimizer.intOfBits]
  | cons b t ih =>
    rw [intOfBits_cons, List.length_cons, List.replicate_succ, pow_succ]
    have hv := intOfBits_lt t
    have hpos : 0 < 2 ^ t.length := Nat.pow_pos (by norm_num)
    cases b with
    | false =>
      simp only [cond_false, zero_mul, zero_add]
      constructor
      · intro h; omega
      · intro h; simp at h
    | true =>
      simp only [cond_true, one_mul, List.cons.injEq, true_and]
      constructor
      · intro h
        exact ih.mp (by omega)
      · intro h
        have := ih.mpr h
        omega

/-- C3 (amended): what the three swap-test objectives actually return — the
exact vertical cost is 1 minus the summed squared amplitudes of the first
`2^(n-a) - 1` basis states; the sampled vertical cost is the mean number of
1s per shot, i.e. the sum over auxiliary positions of the empirical
one-frequency; and the horizontal cost is the empirical frequency of the
all-ones outcome on the `2a` measured qubits (a probability, not one minus
one). -/
theorem swap_objectives_characterized :
    (∀ (n a : ℕ) (ψ : Fin (2 ^ n) → Cx),
        VerticalSwapOptimizer.objective_function n a ψ =
          1 - ∑ i ∈ Finset.univ.filter
              (fun i : Fin (2 ^ n) => (i : ℕ) < 2 ^ (n - a) - 1),
            Cx.normSq (ψ i)) ∧
      (∀ (a : ℕ) (shots : List (List Bool)), (∀ s ∈ shots, s.length = a) →
          VerticalSampleSwapOptimizer.objective_function shots =
            ∑ j ∈ Finset.range a, empiricalOneFreq j shots) ∧
      ∀ (a : ℕ) (shots : List (List Bool)), (∀ s ∈ shots, s.length = 2 * a) →
        HorizontalSwapOptimizer.objective_function a shots =
          empiricalAllOnesFreq (2 * a) shots := by
  refine ⟨fun n a ψ => rfl, ?_, ?_⟩
  · intro a shots h
    unfold VerticalSampleSwapOptimizer.objective_function empiricalOneFreq
    rw [sum_countOnes a shots h]
    push_cast
    rw [Finset.sum_div]
  · intro a shots h
    unfold HorizontalSwapOptimizer.objective_function empiricalAllOnesFreq
    have hfilter : shots.filter
          (fun s => decide (HorizontalSwapOptimizer.intOfBits s = 2 ^ (2 * a) - 1)) =
        shots.filter (fun s => decide (s = List.replicate (2 * a) true)) := by
      refine List.filter_congr fun s hs => ?_
      rw [decide_eq_decide, ← h s hs]
      exact intOfBits_max_iff s
    rw [hfilter]

/-- Witness for the amended C3 at concrete shot lists. -/
theorem swap_objectives_characterized_witness :
    VerticalSampleSwapOptimizer.objective_function [[true, false]] =
        ∑ j ∈ Finset.range 2, empiricalOneFreq j [[true, false]] ∧
      HorizontalSwapOptimizer.objective_function 1 [[true, true]] =
        empiricalAllOnesFreq (2 * 1) [[true, true]] :=
  ⟨swap_objectives_characterized.2.1 2 [[true, false]] (by simp),
    swap_objectives_characterized.2.2 1 [[true, true]] (by simp)⟩

/-! ### Tomography lemmas -/

theorem re_sum {α : Type} (s : Finset α) (f : α → Cx) :
    (∑ x ∈ s, f x).re = ∑ x ∈ s, (f x).re := by
  induction s using Finset.cons_induction with
  | empty => rfl
  | cons a s ha ih => rw [Finset.sum_cons, Finset.sum_cons, Cx.add_re, ih]

theorem im_sum {α : Type} (s : Finset α) (f : α → Cx) :
    (∑ x ∈ s, f x).im = ∑ x ∈ s, (f x).im := by
  induction s using Finset.cons_induction with
  | empty => rfl
  | cons a s ha ih => rw [Finset.sum_cons, Finset.sum_cons, Cx.add_im, ih]

theorem reducedDensity_herm (ψ : Fin 8 → Cx) (i j : Fin 2) :
    reducedDensity ψ j i = star (reducedDensity ψ i j) := by
  unfold reducedDensity
  rw [star_sum]
  refine Finset.sum_congr rfl fun r _ => ?_
  rw [star_mul, star_star]

theorem reducedDensity_diag_im (ψ : Fin 8 → Cx) (i : Fin 2) :
    (reducedDensity ψ i i).im = 0 := by
  have h := congrArg Cx.im (reducedDensity_herm ψ i i)
  rw [Cx.star_im] at h
  linarith

theorem reducedDensity_trace (ψ : Fin 8 → Cx) :
    (reducedDensity ψ 0 0).re + (reducedDensity ψ 1 1).re =
      ∑ k, Cx.normSq (ψ k) := by
  have hdiag : ∀ i : Fin 2, (reducedDensity ψ i i).re =
      ∑ r : Fin 4, Cx.normSq (ψ (probeIdx i r)) := by
    intro i
    unfold reducedDensity
    rw [re_sum]
    refine Finset.sum_congr rfl fun r _ => ?_
    rw [Cx.mul_star_self]
  rw [hdiag 0, hdiag 1,
    ← Equiv.sum_comp probeEquiv (fun k => Cx.normSq (ψ k)),
    Fintype.sum_prod_type, Fin.sum_univ_two]
  rfl

/-- C4: the full-tomography objective (the norm of the Bloch-vector
difference of the probe qubit between the two exact simulations) vanishes
exactly when the probe qubit's reduced states in the two circuits agree. -/
theorem full_tomography_zero_iff (ψL ψR : Fin 8 → Cx)
    (hL : ∑ k, Cx.normSq (ψL k) = 1) (hR : ∑ k, Cx.normSq (ψR k) = 1) :
    full_tomography_env_objective_function ψL ψR = 0 ↔
      reducedDensity ψL = reducedDensity ψR := by
  unfold full_tomography_env_objective_function
  constructor
  · intro h
    have hnn : (0 : ℚ) ≤
        ((blochVector ψL).1 - (blochVector ψR).1) ^ 2 +
          ((blochVector ψL).2.1 - (blochVector ψR).2.1) ^ 2 +
          ((blochVector ψL).2.2 - (blochVector ψR).2.2) ^ 2 := by positivity
    have h0 := Real.sqrt_eq_zero'.mp h
    have harg : ((blochVector ψL).1 - (blochVector ψR).1) ^ 2 +
        ((blochVector ψL).2.1 - (blochVector ψR).2.1) ^ 2 +
        ((blochVector ψL).2.2 - (blochVector ψR).2.2) ^ 2 = 0 := by
      have hle : ((blochVector ψL).1 - (blochVector ψR).1) ^ 2 +
          ((blochVector ψL).2.1 - (blochVector ψR).2.1) ^ 2 +
          ((blochVector ψL).2.2 - (blochVector ψR).2.2) ^ 2 ≤ 0 := by
        exact_mod_cast h0
      linarith
    have s1 := sq_nonneg ((blochVector ψL).1 - (blochVector ψR).1)
    have s2 := sq_nonneg ((blochVector ψL).2.1 - (blochVector ψR).2.1)
    have s3 := sq_nonneg ((blochVector ψL).2.2 - (blochVector ψR).2.2)
    have hbx : (blochVector ψL).1 = (blochVector ψR).1 := by
      have : ((blochVector ψL).1 - (blochVector ψR).1) ^ 2 = 0 := by linarith
      have := pow_eq_zero_iff (by norm_num : 2 ≠ 0) |>.mp this
      linarith
    have hby : (blochVector ψL).2.1 = (blochVector ψR).2.1 := by
      have : ((blochVector ψL).2.1 - (blochVector ψR).2.1) ^ 2 = 0 := by linarith
      have := pow_eq_zero_iff (by norm_num : 2 ≠ 0) |>.mp this
      linarith
    have hbz : (blochVector ψL).2.2 = (blochVector ψR).2.2 := by
      have : ((blochVector ψL).2.2 - (blochVector ψR).2.2) ^ 2 = 0 := by linarith
      have := pow_eq_zero_iff (by norm_num : 2 ≠ 0) |>.mp this
      linarith
    simp only [blochVector] at hbx hby hbz
    -- off-diagonal entry 0 1
    have e01 : reducedDensity ψL 0 1 = reducedDensity ψR 0 1 := by
      have him : (reducedDensity ψL 0 1).im = (reducedDensity ψR 0 1).im := by
        have h10L := congrArg Cx.im (reducedDensity_herm ψL 0 1)
        have h10R := congrArg Cx.im (reducedDensity_herm ψR 0 1)
        rw [Cx.star_im] at h10L h10R
        linarith
      ext
      · linarith
      · exact him
    have e10 : reducedDensity ψL 1 0 = reducedDensity ψR 1 0 := by
      rw [reducedDensity_herm ψL 0 1, reducedDensity_herm ψR 0 1, e01]
    -- diagonal entries from the trace normalization and b_z
    have htL := reducedDensity_trace ψL
    have htR := reducedDensity_trace ψR
    rw [hL] at htL
    rw [hR] at htR
    have e00 : reducedDensity ψL 0 0 = reducedDensity ψR 0 0 := by
      ext
      · linarith
      · rw [reducedDensity_diag_im, reducedDensity_diag_im]
    have e11 : reducedDensity ψL 1 1 = reducedDensity ψR 1 1 := by
      ext
      · linarith
      · rw [reducedDensity_diag_im, reducedDensity_diag_im]
    funext i j
    fin_cases i <;> fin_cases j
    · exact e00
    · exact e01
    · exact e10
    · exact e11
  · intro heq
    have hb : blochVector ψL = blochVector ψR := by
      unfold blochVector
      rw [heq]
    rw [hb]
    simp

/-- Witness for C4 at the all-zero basis state on both sides. -/
theorem full_tomography_zero_iff_witness :
    (∑ k, Cx.normSq (basisState 0 k)) = 1 ∧
      (full_tomography_env_objective_function (basisState 0) (basisState 0) = 0 ↔
        reducedDensity (basisState 0) = reducedDensity (basisState 0)) := by
  have h : (∑ k, Cx.normSq (basisState 0 k)) = 1 := by
    show ∑ k : Fin 8, Cx.normSq (basisState 0 k) = 1
    simp [basisState, Fin.sum_univ_eight]
  exact ⟨h, full_tomography_zero_iff (basisState 0) (basisState 0) h h⟩
